import Mathlib

/-!
Verification of the chunked columnar table core implied by
`py-polars/polars/functions.py` (concat, read_csv validation) and the
spec of the underlying engine (ChunkedColumn, Table, vstack, rechunk,
LazyPlan with predicate/projection pushdown).

The Python wrapper in `functions.py` is embedded directly; the engine
pieces it calls into (DataFrame.vstack, DataFrame.rechunk, the lazy
query plan) are not shipped in this repository and are modelled from the
spec, as marked on each definition.
-/

namespace Polars

/-- Scalar values stored in columns; the dtypes the claims exercise. -/
inductive Value where
  | int (n : Int)
  | str (s : String)
  | boolean (b : Bool)
  deriving DecidableEq, Repr

/-- Column data types. -/
inductive Dtype where
  | int64
  | utf8
  | boolean
  deriving DecidableEq, Repr

/-- Modelled from the spec: the error taxonomy of §7 (the engine error
types behind the Python `RuntimeError` / `assert` / `ValueError` the
wrapper sees). `SchemaMismatch` is a column set/dtype/order mismatch,
`ConcurrentBorrow` an in-place mutation attempted on an aliased buffer,
`EmptyInput` a concat over zero tables, `ParseError` a decoder failure. -/
inductive Err where
  | SchemaMismatch
  | ConcurrentBorrow
  | EmptyInput
  | ParseError
  deriving DecidableEq, Repr

/-- Modelled from the spec: a ChunkedColumn is a named, typed ordered
sequence of chunks; validity is represented by storing each slot as an
`Option Value` (`none` = null bit unset), which keeps every chunk's
length equal to its validity bitmap's bit-length by construction. -/
structure ChunkedColumn where
  name : String
  dtype : Dtype
  chunks : List (List (Option Value))
  deriving DecidableEq, Repr

namespace ChunkedColumn

/-- Total element count: the sum of the chunk lengths. -/
def len (c : ChunkedColumn) : Nat :=
  (c.chunks.map List.length).sum

/-- Logical values of the column, in order, across chunk boundaries. -/
def values (c : ChunkedColumn) : List (Option Value) :=
  c.chunks.flatten

/-- Modelled from the spec: `rechunk` merges all chunks into a single
chunk preserving order. -/
def rechunk (c : ChunkedColumn) : ChunkedColumn :=
  { c with chunks := [c.chunks.flatten] }

end ChunkedColumn

/-- Modelled from the spec: a Table is an ordered collection of named
ChunkedColumns. -/
structure Table where
  columns : List ChunkedColumn
  deriving DecidableEq, Repr

namespace Table

/-- Height of the table: the total element count of its first column
(0 for a table with no columns); well-formedness makes all columns agree. -/
def height (t : Table) : Nat :=
  match t.columns with
  | [] => 0
  | c :: _ => c.len

/-- Well-formedness invariant: every column has the same total element
count, equal to the table's height. -/
def wf (t : Table) : Prop :=
  ∀ c ∈ t.columns, c.len = t.height

/-- Schema of a table: the column names and dtypes, in order. -/
def schema (t : Table) : List (String × Dtype) :=
  t.columns.map (fun c => (c.name, c.dtype))

/-- Row `i` of the table: the `i`-th logical value of every column. -/
def row (t : Table) (i : Nat) : List (Option Value) :=
  t.columns.map (fun c => (c.values[i]?).getD none)

/-- All rows of the table in order. -/
def rows (t : Table) : List (List (Option Value)) :=
  (List.range t.height).map t.row

/-- Column-wise append of the chunks of matching columns; the partial
underlying operation of `vstack`, meaningful when schemas match. -/
def vstackData (a b : Table) : Table :=
  ⟨List.zipWith (fun ca cb => { ca with chunks := ca.chunks ++ cb.chunks })
    a.columns b.columns⟩

/-- Modelled from the spec: `vstack` is row-wise concatenation. It
requires identical names and dtypes in the same order and fails with
`SchemaMismatch` otherwise; on success it appends `other`'s chunks after
`self`'s in every column. -/
def vstack (a b : Table) : Except Err Table :=
  if a.schema = b.schema then .ok (vstackData a b) else .error .SchemaMismatch

/-- Modelled from the spec: table `rechunk` rechunks every column. -/
def rechunk (t : Table) : Table :=
  ⟨t.columns.map ChunkedColumn.rechunk⟩

/-- Modelled from the spec: a deep clone; its logical content is the
table itself (cloning only duplicates buffers). -/
def clone (t : Table) : Table := t

/-- Logical equality of tables: same column names, dtypes and values in
the same order (chunk boundaries may differ). -/
def logicalEq (a b : Table) : Prop :=
  a.schema = b.schema ∧ a.columns.map ChunkedColumn.values = b.columns.map ChunkedColumn.values

end Table

/-- One iteration of the loop in `concat` from `functions.py`: try
`df.vstack(dfs[i], in_place=False)`; on the double-borrow error the
engine signals as a Python `RuntimeError` (the spec's
`ConcurrentBorrow`) retry once as `df.vstack(dfs[i].clone(),
in_place=True)`; any other error propagates. `vs` and `vsInPlace`
abstract the engine's two vstack entry points. -/
def concatStep (vs vsInPlace : Table → Table → Except Err Table)
    (df other : Table) : Except Err Table :=
  match vs df other with
  | .ok r => .ok r
  | .error .ConcurrentBorrow => vsInPlace df other.clone
  | .error e => .error e

/-- Embedding of `concat` from `functions.py`: the `assert len(dfs) > 0`
failure on an empty input is the spec's `EmptyInput`; otherwise the
vstack step is folded left-to-right starting from `dfs[0]` and the
result is rechunked iff `rechunkFlag`. Both engine vstack entry points
are instantiated with the value-level `Table.vstack` (modelled from the
spec: `in_place` affects buffer ownership, not logical content). -/
def concat (dfs : List Table) (rechunkFlag : Bool) : Except Err Table :=
  match dfs with
  | [] => .error .EmptyInput
  | d :: rest =>
    match rest.foldlM (concatStep Table.vstack Table.vstack) d with
    | .error e => .error e
    | .ok df => .ok (if rechunkFlag then df.rechunk else df)

/-- Modelled from the spec: the effect of `vstack(a, b, in_place=false)`
on the engine's set of live tables. The store keeps every existing
table unchanged; on success a newly built table is placed at a fresh
index, and a failing vstack leaves the store untouched. `none` is an
out-of-range table index. -/
def vstackNew (s : List Table) (i j : Nat) : Option (List Table × Except Err Nat) :=
  match s[i]?, s[j]? with
  | some a, some b =>
    some (match Table.vstack a b with
      | .ok r => (s ++ [r], .ok s.length)
      | .error e => (s, .error e))
  | _, _ => none

/-- Python `str.startswith`, as a test on the character data of the two
strings. -/
def startswith (s pre : String) : Bool :=
  pre.data.isPrefixOf s.data

/-- Embedding of the `read_csv` column-name validation from
`functions.py` (lines 172-178): when a columns selection is truthy and
`has_headers` is false, every requested name must start with
`column_`; the first offender raises a `ValueError` (its message below)
before the file reaches any parser. `parse` abstracts everything the
function does after this check. -/
def read_csv (parse : Unit → Except String Table)
    (has_headers : Bool) (columns : List String) : Except String Table :=
  if columns ≠ [] ∧ has_headers = false then
    match columns.find? (fun c => !(startswith c "column_")) with
    | some _ => .error "Specified column names do not start with \"column_\", but autogenerated header names were requested."
    | none => parse ()
  else parse ()

namespace Lazy

/-- Rows manipulated by the lazy engine: named values in column order. -/
abbrev Row := List (String × Value)

/-- Modelled from the spec: predicate expressions a Filter node holds
and a Scan node can receive through predicate pushdown. -/
inductive Pred where
  | colEq (c : String) (v : Value)
  | colLtInt (c : String) (n : Int)
  | pand (p q : Pred)
  deriving DecidableEq, Repr

/-- Value of a named column in a row (first match), `none` if absent. -/
def lookupCol (c : String) : Row → Option Value
  | [] => none
  | (c0, v) :: rest => if c0 = c then some v else lookupCol c rest

/-- Evaluation of a predicate on a row; a reference to an absent column
evaluates to false. -/
def evalPred : Pred → Row → Bool
  | .colEq c v, r => lookupCol c r == some v
  | .colLtInt c n, r =>
    match lookupCol c r with
    | some (.int m) => decide (m < n)
    | _ => false
  | .pand p q, r => evalPred p r && evalPred q r

/-- Column names a predicate reads. -/
def Pred.cols : Pred → List String
  | .colEq c _ => [c]
  | .colLtInt c _ => [c]
  | .pand p q => p.cols ++ q.cols

/-- Projection of a row to the requested columns, in requested order;
absent columns are dropped. -/
def projRow (cols : List String) (r : Row) : Row :=
  cols.filterMap (fun c => (lookupCol c r).map (fun v => (c, v)))

/-- Projection applied only when a projection is present. -/
def applyProj : Option (List String) → Row → Row
  | none, r => r
  | some cols, r => projRow cols r

/-- Modelled from the spec: LazyPlan nodes. A Scan node carries the
predicate-pushdown and projection-pushdown slots that are consumed at
materialization time; a user-built scan has empty slots. -/
inductive Plan where
  | scan (src : Nat) (preds : List Pred) (proj : Option (List String))
  | filter (p : Pred) (inp : Plan)
  | select (cols : List String) (inp : Plan)
  | concatPlan (l r : Plan)
  deriving DecidableEq, Repr

/-- Modelled from the spec: naive bottom-up materialization against the
source environment `env`. A Scan reads its full source, then applies
its own pushed-down predicates and projection; Filter and Select apply
after their input has fully materialized; Concat stacks its inputs. -/
def collect (env : Nat → List Row) : Plan → List Row
  | .scan s preds proj =>
    ((env s).filter (fun r => preds.all (fun p => evalPred p r))).map (applyProj proj)
  | .filter p q => (collect env q).filter (evalPred p)
  | .select cols q => (collect env q).map (projRow cols)
  | .concatPlan l r => collect env l ++ collect env r

/-- Modelled from the spec: push a Filter node downward. The predicate
is absorbed into a Scan node when the scan's projection keeps every
column the predicate reads, and is distributed through Concat; where
pushing is not known to preserve the row set, the Filter stays put. -/
def pushFilter (p : Pred) : Plan → Plan
  | .scan s preds none => .scan s (preds ++ [p]) none
  | .scan s preds (some proj) =>
    if p.cols.all (fun c => decide (c ∈ proj)) then .scan s (preds ++ [p]) (some proj)
    else .filter p (.scan s preds (some proj))
  | .concatPlan l r => .concatPlan (pushFilter p l) (pushFilter p r)
  | .filter q x => .filter p (.filter q x)
  | .select cols x => .filter p (.select cols x)

/-- Modelled from the spec: push a Select node downward. The projection
is absorbed into a Scan node (composing with an already-pushed
projection) and distributed through Concat; otherwise it stays put. -/
def pushSelect (cols : List String) : Plan → Plan
  | .scan s preds none => .scan s preds (some cols)
  | .scan s preds (some proj) =>
    .scan s preds (some (cols.filter (fun c => decide (c ∈ proj))))
  | .concatPlan l r => .concatPlan (pushSelect cols l) (pushSelect cols r)
  | .filter q x => .select cols (.filter q x)
  | .select cols0 x => .select cols (.select cols0 x)

/-- Modelled from the spec: the pushdown optimization pass of
`collect()` — walk the plan bottom-up, pushing filter and select
information down into Scan nodes wherever the intervening nodes do not
change the row set those predicates and projections refer to. -/
def pushdown : Plan → Plan
  | .scan s preds proj => .scan s preds proj
  | .filter p q => pushFilter p (pushdown q)
  | .select cols q => pushSelect cols (pushdown q)
  | .concatPlan l r => .concatPlan (pushdown l) (pushdown r)

/-- Modelled from the spec: unoptimized materialization — apply
filter/select after a full scan, exactly as the plan is written. -/
def collect_naive (env : Nat → List Row) (P : Plan) : List Row :=
  collect env P

/-- Modelled from the spec: materialization with predicate/projection
pushdown enabled — optimize the plan, then materialize it. -/
def collect_with_pushdown (env : Nat → List Row) (P : Plan) : List Row :=
  collect env (pushdown P)

end Lazy

/-- Example table A of the spec scenario: `{id: Int64 [1, 2], val: Utf8 ["a", "b"]}`. -/
def exA : Table :=
  ⟨[⟨"id", .int64, [[some (.int 1), some (.int 2)]]⟩,
    ⟨"val", .utf8, [[some (.str "a"), some (.str "b")]]⟩]⟩

/-- Example table B of the spec scenario: `{id: Int64 [3], val: Utf8 ["c"]}`. -/
def exB : Table :=
  ⟨[⟨"id", .int64, [[some (.int 3)]]⟩,
    ⟨"val", .utf8, [[some (.str "c")]]⟩]⟩

/-- Example table whose schema differs from `exA` (one Utf8 column). -/
def exC : Table :=
  ⟨[⟨"id", .utf8, [[some (.str "x")]]⟩]⟩

/-! Helper lemmas about columns and tables. -/

namespace ChunkedColumn

theorem values_length (c : ChunkedColumn) : c.values.length = c.len := by
  simp [values, len, List.length_flatten]

theorem values_rechunk (c : ChunkedColumn) : c.rechunk.values = c.values := by
  simp [values, rechunk]

theorem len_rechunk (c : ChunkedColumn) : c.rechunk.len = c.len := by
  rw [← values_length, ← values_length, values_rechunk]

end ChunkedColumn

namespace Table

theorem schema_rechunk (t : Table) : t.rechunk.schema = t.schema := by
  simp [schema, rechunk, ChunkedColumn.rechunk]

theorem values_map_rechunk (t : Table) :
    t.rechunk.columns.map ChunkedColumn.values = t.columns.map ChunkedColumn.values := by
  simp [rechunk, ChunkedColumn.values_rechunk]

theorem height_rechunk (t : Table) : t.rechunk.height = t.height := by
  cases t with
  | mk cols =>
    cases cols with
    | nil => rfl
    | cons c cs => simp [height, rechunk, ChunkedColumn.len_rechunk]

theorem logicalEq_rechunk (t : Table) : t.rechunk.logicalEq t :=
  ⟨schema_rechunk t, values_map_rechunk t⟩

theorem schema_length (t : Table) : t.schema.length = t.columns.length := by
  simp [schema]

theorem columns_length_eq_of_schema_eq {a b : Table} (h : a.schema = b.schema) :
    a.columns.length = b.columns.length := by
  rw [← schema_length, ← schema_length, h]

theorem vstack_ok {a b : Table} (h : a.schema = b.schema) :
    vstack a b = .ok (vstackData a b) := by
  simp [vstack, h]

theorem vstack_mismatch {a b : Table} (h : a.schema ≠ b.schema) :
    vstack a b = .error .SchemaMismatch := by
  simp [vstack, h]

theorem schema_vstackData {a b : Table} (h : a.schema = b.schema) :
    (vstackData a b).schema = a.schema := by
  have hlen := columns_length_eq_of_schema_eq h
  unfold vstackData schema
  rw [List.map_zipWith]
  revert hlen
  generalize a.columns = as
  generalize b.columns = bs
  intro hlen
  induction as generalizing bs with
  | nil => simp
  | cons x xs ih =>
    cases bs with
    | nil => simp at hlen
    | cons y ys =>
      simp only [List.zipWith, List.map]
      exact congrArg _ (ih ys (by simpa using hlen))

end Table

theorem zipWith_eq_map_left {α β γ : Type _} (f : α → β → γ) (g : α → γ) :
    ∀ (as : List α) (bs : List β), as.length = bs.length →
      (∀ x ∈ as, ∀ y ∈ bs, f x y = g x) →
      List.zipWith f as bs = as.map g := by
  intro as
  induction as with
  | nil => intro bs _ _; simp
  | cons x xs ih =>
    intro bs hlen hf
    cases bs with
    | nil => simp at hlen
    | cons y ys =>
      rw [List.zipWith_cons_cons, List.map_cons,
        hf x (List.mem_cons_self x xs) y (List.mem_cons_self y ys)]
      exact congrArg _ (ih ys (by simpa using hlen)
        (fun x2 hx2 y2 hy2 => hf x2 (List.mem_cons_of_mem x hx2) y2 (List.mem_cons_of_mem y hy2)))

theorem zipWith_eq_map_right {α β γ : Type _} (f : α → β → γ) (g : β → γ) :
    ∀ (as : List α) (bs : List β), as.length = bs.length →
      (∀ x ∈ as, ∀ y ∈ bs, f x y = g y) →
      List.zipWith f as bs = bs.map g := by
  intro as
  induction as with
  | nil => intro bs hlen _; cases bs with
    | nil => simp
    | cons y ys => simp at hlen
  | cons x xs ih =>
    intro bs hlen hf
    cases bs with
    | nil => simp at hlen
    | cons y ys =>
      rw [List.zipWith_cons_cons, List.map_cons,
        hf x (List.mem_cons_self x xs) y (List.mem_cons_self y ys)]
      exact congrArg _ (ih ys (by simpa using hlen)
        (fun x2 hx2 y2 hy2 => hf x2 (List.mem_cons_of_mem x hx2) y2 (List.mem_cons_of_mem y hy2)))

namespace Table

theorem values_append_col (ca cb : ChunkedColumn) :
    ({ ca with chunks := ca.chunks ++ cb.chunks } : ChunkedColumn).values =
      ca.values ++ cb.values := by
  simp [ChunkedColumn.values]

theorem height_vstackData {a b : Table} (h : a.schema = b.schema) :
    (vstackData a b).height = a.height + b.height := by
  have hlen := columns_length_eq_of_schema_eq h
  rcases a with ⟨acols⟩
  rcases b with ⟨bcols⟩
  cases acols with
  | nil =>
    cases bcols with
    | nil => rfl
    | cons y ys => simp at hlen
  | cons x xs =>
    cases bcols with
    | nil => simp at hlen
    | cons y ys =>
      show ({ x with chunks := x.chunks ++ y.chunks } : ChunkedColumn).len = x.len + y.len
      simp [ChunkedColumn.len]

theorem row_vstackData_left {a b : Table} (hwa : a.wf) (h : a.schema = b.schema)
    {i : Nat} (hi : i < a.height) : (vstackData a b).row i = a.row i := by
  have hlen := columns_length_eq_of_schema_eq h
  unfold row vstackData
  rw [List.map_zipWith]
  apply zipWith_eq_map_left _ _ _ _ hlen
  intro ca hca cb _
  rw [values_append_col,
    List.getElem?_append_left (by rw [ChunkedColumn.values_length, hwa ca hca]; exact hi)]

theorem row_vstackData_right {a b : Table} (hwa : a.wf) (h : a.schema = b.schema)
    (i : Nat) : (vstackData a b).row (a.height + i) = b.row i := by
  have hlen := columns_length_eq_of_schema_eq h
  unfold row vstackData
  rw [List.map_zipWith]
  apply zipWith_eq_map_right _ _ _ _ hlen
  intro ca hca cb _
  rw [values_append_col,
    List.getElem?_append_right (by rw [ChunkedColumn.values_length, hwa ca hca]; omega)]
  congr 2
  rw [ChunkedColumn.values_length, hwa ca hca]
  omega

theorem rows_vstackData {a b : Table} (hwa : a.wf) (h : a.schema = b.schema) :
    (vstackData a b).rows = a.rows ++ b.rows := by
  unfold rows
  rw [height_vstackData h, List.range_add, List.map_append, List.map_map]
  congr 1
  · exact List.map_congr_left (fun i hi => row_vstackData_left hwa h (List.mem_range.mp hi))
  · exact List.map_congr_left (fun i _ => row_vstackData_right hwa h i)

end Table

theorem concatStep_vstack (df other : Table) :
    concatStep Table.vstack Table.vstack df other = Table.vstack df other := by
  by_cases h : df.schema = other.schema
  · simp [concatStep, Table.vstack_ok h]
  · simp [concatStep, Table.vstack_mismatch h]

theorem foldlM_concatStep_ok (s : List (String × Dtype)) :
    ∀ (rest : List Table) (d : Table), d.schema = s → (∀ t ∈ rest, t.schema = s) →
      rest.foldlM (concatStep Table.vstack Table.vstack) d =
        .ok (rest.foldl Table.vstackData d) := by
  intro rest
  induction rest with
  | nil => intro d _ _; rfl
  | cons t ts ih =>
    intro d hd hts
    have hdt : d.schema = t.schema := by rw [hd, hts t (List.mem_cons_self t ts)]
    rw [List.foldlM_cons, concatStep_vstack, Table.vstack_ok hdt]
    show ts.foldlM (concatStep Table.vstack Table.vstack) (Table.vstackData d t) = _
    rw [List.foldl_cons]
    exact ih (Table.vstackData d t) (by rw [Table.schema_vstackData hdt, hd])
      (fun u hu => hts u (List.mem_cons_of_mem t hu))

/-! Claim theorems for the eager Table component. -/

/-- C2: on a non-empty sequence of tables with matching schemas, `concat`
computes its result as the left-to-right fold of `vstack` starting from
`tables[0]`, and applies `rechunk` to the accumulated result at the end
iff the rechunk flag is true. -/
theorem concat_eq_fold_vstack (d : Table) (rest : List Table) (flag : Bool)
    (h : ∀ t ∈ rest, t.schema = d.schema) :
    concat (d :: rest) flag =
      .ok (if flag then (rest.foldl Table.vstackData d).rechunk
           else rest.foldl Table.vstackData d) := by
  show (match rest.foldlM (concatStep Table.vstack Table.vstack) d with
    | Except.error e => (Except.error e : Except Err Table)
    | Except.ok df => Except.ok (if flag then df.rechunk else df)) = _
  rw [foldlM_concatStep_ok d.schema rest d rfl h]

theorem concat_eq_fold_vstack_witness :
    concat [exA, exB] true =
      .ok (if true then ([exB].foldl Table.vstackData exA).rechunk
           else [exB].foldl Table.vstackData exA) :=
  concat_eq_fold_vstack exA [exB] true
    (by intro t ht; rw [List.mem_singleton] at ht; subst ht; rfl)

/-- C3: `concat` on an empty sequence of tables fails with `EmptyInput`
(the failed `assert len(dfs) > 0`) and produces no table, for either
value of the rechunk flag. -/
theorem concat_empty_fails (flag : Bool) : concat [] flag = .error Err.EmptyInput := rfl

/-- C4: the per-step error policy of `concat`: when the engine's vstack
step fails with `ConcurrentBorrow` (the Python `RuntimeError` of the
double borrow), the step is retried exactly once as an in-place vstack
on a deep clone of the right-hand operand, whose outcome is returned
unhandled; any other error propagates to the caller unmodified, and a
successful step is returned as is. -/
theorem concat_retry_policy (vs vsIP : Table → Table → Except Err Table)
    (df other : Table) :
    (vs df other = .error .ConcurrentBorrow →
      concatStep vs vsIP df other = vsIP df other.clone) ∧
    (∀ e, e ≠ Err.ConcurrentBorrow → vs df other = .error e →
      concatStep vs vsIP df other = .error e) ∧
    (∀ r, vs df other = .ok r → concatStep vs vsIP df other = .ok r) := by
  refine ⟨?_, ?_, ?_⟩
  · intro h
    simp [concatStep, h]
  · intro e he h
    cases e
    · simp [concatStep, h]
    · exact absurd rfl he
    · simp [concatStep, h]
    · simp [concatStep, h]
  · intro r h
    simp [concatStep, h]

theorem concat_retry_policy_witness :
    concatStep (fun _ _ => .error .ConcurrentBorrow) (fun a b => Table.vstack a b) exA exB
        = Table.vstack exA exB.clone ∧
    concatStep (fun _ _ => .error .SchemaMismatch) (fun a b => Table.vstack a b) exA exB
        = .error .SchemaMismatch ∧
    concatStep (fun _ _ => .ok exA) (fun a b => Table.vstack a b) exA exB = .ok exA :=
  ⟨(concat_retry_policy (fun _ _ => .error .ConcurrentBorrow)
      (fun a b => Table.vstack a b) exA exB).1 rfl,
   (concat_retry_policy (fun _ _ => .error .SchemaMismatch)
      (fun a b => Table.vstack a b) exA exB).2.1 .SchemaMismatch (by decide) rfl,
   (concat_retry_policy (fun _ _ => .ok exA)
      (fun a b => Table.vstack a b) exA exB).2.2 exA rfl⟩

/-- C5: for well-formed tables with identical schemas, `vstack` succeeds
with a table whose height is the sum of the input heights and whose rows
are exactly the rows of the left input, in order, followed by the rows
of the right input, in order. -/
theorem vstack_height_and_rows (a b : Table) (hwa : a.wf) (_hwb : b.wf)
    (h : a.schema = b.schema) :
    ∃ c, Table.vstack a b = .ok c ∧ c.height = a.height + b.height ∧
      c.rows = a.rows ++ b.rows :=
  ⟨Table.vstackData a b, Table.vstack_ok h, Table.height_vstackData h,
    Table.rows_vstackData hwa h⟩

theorem vstack_height_and_rows_witness :
    ∃ c, Table.vstack exA exB = .ok c ∧ c.height = exA.height + exB.height ∧
      c.rows = exA.rows ++ exB.rows :=
  vstack_height_and_rows exA exB (by unfold Table.wf; decide) (by unfold Table.wf; decide) rfl

/-- C6: `vstack` on tables whose column names, dtypes or column order
differ fails with `SchemaMismatch`, and the failing operation leaves the
engine's set of live tables — in particular both inputs — untouched. -/
theorem vstack_mismatch_atomic (a b : Table) (h : a.schema ≠ b.schema) :
    Table.vstack a b = .error .SchemaMismatch ∧
    ∀ (s : List Table) (i j : Nat), s[i]? = some a → s[j]? = some b →
      vstackNew s i j = some (s, .error .SchemaMismatch) := by
  refine ⟨Table.vstack_mismatch h, ?_⟩
  intro s i j hi hj
  unfold vstackNew
  rw [hi, hj]
  simp [Table.vstack_mismatch h]

theorem vstack_mismatch_atomic_witness :
    Table.vstack exA exC = .error .SchemaMismatch ∧
    vstackNew [exA, exC] 0 1 = some ([exA, exC], .error .SchemaMismatch) :=
  ⟨(vstack_mismatch_atomic exA exC (by decide)).1,
   (vstack_mismatch_atomic exA exC (by decide)).2 [exA, exC] 0 1 rfl rfl⟩

/-- C7: `vstack(a, b, in_place=false)` on matching schemas builds a new
table at a fresh index of the engine's store, leaving every existing
table — in particular both inputs — unmodified. -/
theorem vstack_new_table_frame (s : List Table) (i j : Nat) (a b : Table)
    (ha : s[i]? = some a) (hb : s[j]? = some b) (h : a.schema = b.schema) :
    vstackNew s i j = some (s ++ [Table.vstackData a b], .ok s.length) ∧
    ∀ k, k < s.length → (s ++ [Table.vstackData a b])[k]? = s[k]? := by
  constructor
  · unfold vstackNew
    rw [ha, hb]
    simp [Table.vstack_ok h]
  · intro k hk
    exact List.getElem?_append_left hk

theorem vstack_new_table_frame_witness :
    vstackNew [exA, exB] 0 1 = some ([exA, exB] ++ [Table.vstackData exA exB], .ok 2) ∧
    ([exA, exB] ++ [Table.vstackData exA exB])[0]? = some exA ∧
    ([exA, exB] ++ [Table.vstackData exA exB])[1]? = some exB ∧
    (Table.vstackData exA exB).height = 3 ∧
    (Table.vstackData exA exB).columns.map ChunkedColumn.values =
      [[some (.int 1), some (.int 2), some (.int 3)],
       [some (.str "a"), some (.str "b"), some (.str "c")]] := by
  have h := vstack_new_table_frame [exA, exB] 0 1 exA exB rfl rfl rfl
  refine ⟨h.1, ?_, ?_, by decide, by decide⟩
  · rw [h.2 0 (by decide)]
    rfl
  · rw [h.2 1 (by decide)]
    rfl

/-- C8: `rechunk` is idempotent on tables, and on a column that already
consists of a single chunk it is a no-op. -/
theorem rechunk_idempotent_and_singleton_noop :
    (∀ t : Table, t.rechunk.rechunk = t.rechunk) ∧
    (∀ (c : ChunkedColumn) (k : List (Option Value)), c.chunks = [k] → c.rechunk = c) := by
  constructor
  · intro t
    rcases t with ⟨cols⟩
    simp only [Table.rechunk, List.map_map, Table.mk.injEq]
    apply List.map_congr_left
    intro c _
    simp [Function.comp, ChunkedColumn.rechunk]
  · intro c k hk
    rcases c with ⟨n, d, chunks⟩
    simp only at hk
    subst hk
    simp [ChunkedColumn.rechunk]

theorem rechunk_idempotent_and_singleton_noop_witness :
    exA.rechunk.rechunk = exA.rechunk ∧
    (⟨"id", .int64, [[some (.int 1), some (.int 2)]]⟩ : ChunkedColumn).rechunk =
      ⟨"id", .int64, [[some (.int 1), some (.int 2)]]⟩ :=
  ⟨rechunk_idempotent_and_singleton_noop.1 exA,
   rechunk_idempotent_and_singleton_noop.2 _ [some (.int 1), some (.int 2)] rfl⟩

/-- C9: `concat` on a singleton sequence, with either value of the
rechunk flag, succeeds with a table logically equal to the input: same
column names, dtypes and values in the same row order, and the same
height. -/
theorem concat_singleton_logicalEq (t : Table) (flag : Bool) :
    ∃ u, concat [t] flag = .ok u ∧ u.logicalEq t ∧ u.height = t.height := by
  refine ⟨if flag then t.rechunk else t, rfl, ?_, ?_⟩
  · cases flag
    · exact ⟨rfl, rfl⟩
    · simpa using Table.logicalEq_rechunk t
  · cases flag <;> simp [Table.height_rechunk]

/-- C10: `read_csv` with `has_headers=False` and a non-empty columns
selection raises its `ValueError` — without consulting the parser, i.e.
before any file data is parsed — exactly when some requested name does
not start with `column_`; when every requested name starts with
`column_`, no such error is raised and the call proceeds to the rest of
the function. -/
theorem read_csv_autogen_check (parse : Unit → Except String Table)
    (columns : List String) (hne : columns ≠ []) :
    ((∃ c ∈ columns, ¬ startswith c "column_") →
      read_csv parse false columns =
        .error "Specified column names do not start with \"column_\", but autogenerated header names were requested.") ∧
    ((∀ c ∈ columns, startswith c "column_") →
      read_csv parse false columns = parse ()) := by
  constructor
  · intro hbad
    have hfind : (columns.find? (fun c => !(startswith c "column_"))).isSome := by
      rw [List.find?_isSome]
      obtain ⟨c, hc, hns⟩ := hbad
      exact ⟨c, hc, by simp [hns]⟩
    unfold read_csv
    rw [if_pos ⟨hne, rfl⟩]
    obtain ⟨x, hx⟩ := Option.isSome_iff_exists.mp hfind
    rw [hx]
  · intro hgood
    have hfind : columns.find? (fun c => !(startswith c "column_")) = none := by
      rw [List.find?_eq_none]
      intro c hc
      simp [hgood c hc]
    unfold read_csv
    rw [if_pos ⟨hne, rfl⟩, hfind]

namespace Lazy

theorem applyProj_none : applyProj none = id := rfl

theorem applyProj_some (cols : List String) : applyProj (some cols) = projRow cols := rfl

theorem projRow_cons (c0 : String) (rest : List String) (r : Row) :
    projRow (c0 :: rest) r =
      match lookupCol c0 r with
      | some v => (c0, v) :: projRow rest r
      | none => projRow rest r := by
  simp only [projRow, List.filterMap_cons]
  cases lookupCol c0 r <;> rfl

theorem lookupCol_projRow (r : Row) (proj : List String) (c : String) :
    lookupCol c (projRow proj r) = if c ∈ proj then lookupCol c r else none := by
  induction proj with
  | nil => simp [projRow, lookupCol]
  | cons c0 rest ih =>
    rw [projRow_cons]
    by_cases hc : c = c0
    · subst hc
      cases h0 : lookupCol c r with
      | none => simp [ih, h0]
      | some v => simp [lookupCol, h0]
    · cases h0 : lookupCol c0 r with
      | none =>
        rw [ih]
        simp [List.mem_cons, hc]
      | some v =>
        show (if c0 = c then some v else lookupCol c (projRow rest r)) = _
        rw [if_neg (fun h => hc h.symm), ih]
        simp [List.mem_cons, hc]

theorem projRow_projRow (r : Row) (proj cols : List String) :
    projRow cols (projRow proj r) =
      projRow (cols.filter (fun c => decide (c ∈ proj))) r := by
  induction cols with
  | nil => rfl
  | cons c rest ih =>
    rw [projRow_cons, lookupCol_projRow, List.filter_cons]
    by_cases hc : c ∈ proj
    · rw [if_pos hc, decide_eq_true hc, if_pos rfl, projRow_cons]
      cases h0 : lookupCol c r with
      | none => simpa using ih
      | some v => simp [ih]
    · rw [if_neg hc, decide_eq_false hc, if_neg Bool.false_ne_true]
      exact ih

theorem evalPred_projRow (p : Pred) (proj : List String) (r : Row)
    (h : ∀ c ∈ p.cols, c ∈ proj) :
    evalPred p (projRow proj r) = evalPred p r := by
  induction p with
  | colEq c v =>
    have hc : c ∈ proj := h c (by simp [Pred.cols])
    simp [evalPred, lookupCol_projRow, hc]
  | colLtInt c n =>
    have hc : c ∈ proj := h c (by simp [Pred.cols])
    simp [evalPred, lookupCol_projRow, hc]
  | pand p q ihp ihq =>
    simp only [Pred.cols] at h
    simp only [evalPred]
    rw [ihp (fun c hc => h c (List.mem_append_left _ hc)),
      ihq (fun c hc => h c (List.mem_append_right _ hc))]

theorem collect_pushFilter (env : Nat → List Row) (p : Pred) (q : Plan) :
    collect env (pushFilter p q) = (collect env q).filter (evalPred p) := by
  induction q with
  | scan s preds proj =>
    cases proj with
    | none =>
      simp only [pushFilter, collect, applyProj_none, List.map_id]
      rw [List.filter_filter]
      apply List.filter_congr
      intro r _
      simp [List.all_append, Bool.and_comm]
    | some proj =>
      by_cases hcols : p.cols.all (fun c => decide (c ∈ proj)) = true
      · have hmem : ∀ c ∈ p.cols, c ∈ proj := by
          intro c hc
          simpa using List.all_eq_true.mp hcols c hc
        simp only [pushFilter]
        rw [if_pos hcols]
        simp only [collect, applyProj_some]
        rw [List.filter_map, List.filter_filter]
        apply congrArg
        apply List.filter_congr
        intro r _
        simp [List.all_append, Function.comp, evalPred_projRow p proj r hmem, Bool.and_comm]
      · simp only [pushFilter]
        rw [if_neg hcols]
        rfl
  | filter p0 x ih => rfl
  | select cols x ih => rfl
  | concatPlan l r ihl ihr =>
    simp only [pushFilter, collect, ihl, ihr, List.filter_append]

theorem collect_pushSelect (env : Nat → List Row) (cols : List String) (q : Plan) :
    collect env (pushSelect cols q) = (collect env q).map (projRow cols) := by
  induction q with
  | scan s preds proj =>
    cases proj with
    | none => simp [pushSelect, collect, applyProj_none, applyProj_some]
    | some proj =>
      simp only [pushSelect, collect, applyProj_some, List.map_map]
      apply List.map_congr_left
      intro r _
      exact (projRow_projRow r proj cols).symm
  | filter p x ih => rfl
  | select cols0 x ih => rfl
  | concatPlan l r ihl ihr =>
    simp only [pushSelect, collect, ihl, ihr, List.map_append]

/-- C1: pushdown is an optimization, not a correctness requirement —
materializing any LazyPlan with predicate/projection pushdown enabled
yields exactly the result of the naive materialization that applies
filter/select after a full scan. -/
theorem collect_with_pushdown_eq_collect_naive (env : Nat → List Row) (P : Plan) :
    collect_with_pushdown env P = collect_naive env P := by
  unfold collect_with_pushdown collect_naive
  induction P with
  | scan s preds proj => rfl
  | filter p q ih =>
    show collect env (pushFilter p (pushdown q)) = _
    rw [collect_pushFilter, ih]
    rfl
  | select cols q ih =>
    show collect env (pushSelect cols (pushdown q)) = _
    rw [collect_pushSelect, ih]
    rfl
  | concatPlan l r ihl ihr =>
    show collect env (.concatPlan (pushdown l) (pushdown r)) = _
    simp only [collect, ihl, ihr]

end Lazy

theorem read_csv_autogen_check_witness :
    read_csv (fun _ => .ok exA) false ["foo"] =
      .error "Specified column names do not start with \"column_\", but autogenerated header names were requested." ∧
    read_csv (fun _ => .ok exA) false ["column_1", "column_2"] = .ok exA :=
  ⟨(read_csv_autogen_check (fun _ => .ok exA) ["foo"] (by simp)).1
      ⟨"foo", by simp, by decide⟩,
   (read_csv_autogen_check (fun _ => .ok exA) ["column_1", "column_2"] (by simp)).2
      (by decide)⟩

end Polars
